import Mathlib

/-!
Verification of the neopets battleground wins tracker (src/main.py).

The script fetches a per-user game-record page, sums the wins of a fixed
roster of challengers, merges the resulting weekly total into a per-user
table of prior weeks (computing the per-week delta and a "last battled
week"), and persists the table as a CSV ledger.

The embedding below models:
* Python strings, ordered lexicographically by code point (as Python's
  string comparison and hence its `sorted` does);
* CSV cell values (`Val`): Python ints, strings, and `None`, together
  with Python truthiness and the `int(...)` conversion;
* Python dicts as association lists with unique keys, in insertion order
  (`alGet` / `alSet`);
* the functions `fetch_total_wins`, `load_weekly_data`, `process_user`,
  `determine_last_battled_week` and `update_or_create_csv` of
  src/main.py, with runtime errors (`IndexError`, `ValueError`,
  `KeyError`) made explicit through `Except`;
* the command-line entry point, as a trace of observable effects.

`fetch_total_wins` performs the HTTP request itself in the source; here
the response is a parameter (`Response`), and the callers in
`process_user` / `update_or_create_csv` take the fetched total as a
parameter or an oracle.  The challenger roster `BATTLEGROUND_CHALLENGERS`
is imported from constants.py, which is not among the provided sources;
all definitions take the roster as an explicit list parameter.
-/

/-- Lexicographic comparison of char lists by code point; this is how
Python compares strings (`a <= b`).  A prior list is `≤` a later one when
at the first differing position its char has the smaller code point, or
when it is a proper initial segment. -/
def strLeB : List Char → List Char → Bool
  | [], _ => true
  | _ :: _, [] => false
  | a :: as, b :: bs => if a = b then strLeB as bs else decide (a.toNat < b.toNat)

/-- Boolean string comparison, Python's `a <= b` on `str`. -/
def pyLeB (a b : String) : Bool := strLeB a.data b.data

/-- Propositional form of `pyLeB`, used as the sort relation. -/
def pyLe (a b : String) : Prop := pyLeB a b = true

instance : DecidableRel pyLe := fun a b => instDecidableEqBool (pyLeB a b) true

/-- Strict string comparison, Python's `a < b` on `str`. -/
def pyLtB (a b : String) : Bool := !(pyLeB b a)

/-- Python's `sorted` on a list of strings. -/
def pySorted (l : List String) : List String := List.insertionSort pyLe l

theorem charToNat_inj {a b : Char} (h : a.toNat = b.toNat) : a = b := by
  have := Char.ofNat_toNat a
  rw [h, Char.ofNat_toNat] at this
  exact this.symm

theorem strLeB_refl : ∀ as : List Char, strLeB as as = true
  | [] => rfl
  | _ :: as => by simpa [strLeB] using strLeB_refl as

theorem strLeB_total : ∀ as bs : List Char, strLeB as bs = true ∨ strLeB bs as = true
  | [], _ => by left; rfl
  | _ :: _, [] => by right; rfl
  | a :: as, b :: bs => by
    by_cases hab : a = b
    · subst hab
      rcases strLeB_total as bs with h | h
      · left; simpa [strLeB] using h
      · right; simpa [strLeB] using h
    · have hn : a.toNat ≠ b.toNat := fun h => hab (charToNat_inj h)
      rcases Nat.lt_or_ge a.toNat b.toNat with h | h
      · left; simp [strLeB, hab, h]
      · right
        have : b.toNat < a.toNat := Nat.lt_of_le_of_ne h (Ne.symm hn)
        simp [strLeB, Ne.symm hab, this]

theorem strLeB_antisymm : ∀ as bs : List Char,
    strLeB as bs = true → strLeB bs as = true → as = bs
  | [], [] => by intros; rfl
  | [], _ :: _ => by intro _ h; exact absurd h (by simp [strLeB])
  | _ :: _, [] => by intro h _; exact absurd h (by simp [strLeB])
  | a :: as, b :: bs => by
    intro h1 h2
    by_cases hab : a = b
    · subst hab
      simp only [strLeB, if_pos rfl] at h1 h2
      rw [strLeB_antisymm as bs h1 h2]
    · simp only [strLeB, if_neg hab, if_neg (Ne.symm hab), decide_eq_true_eq] at h1 h2
      exact absurd (Nat.lt_trans h1 h2) (Nat.lt_irrefl _)

theorem strLeB_trans : ∀ as bs cs : List Char,
    strLeB as bs = true → strLeB bs cs = true → strLeB as cs = true
  | [], _, _ => by intros; rfl
  | _ :: _, [], _ => by intro h _; exact absurd h (by simp [strLeB])
  | _ :: _, _ :: _, [] => by intro _ h; exact absurd h (by simp [strLeB])
  | a :: as, b :: bs, c :: cs => by
    intro h1 h2
    by_cases hab : a = b
    · subst hab
      simp only [strLeB, if_pos rfl] at h1
      by_cases hbc : a = c
      · subst hbc
        simp only [strLeB, if_pos rfl] at h2 ⊢
        exact strLeB_trans as bs cs h1 h2
      · simp only [strLeB, if_neg hbc] at h2 ⊢
        exact h2
    · simp only [strLeB, if_neg hab, decide_eq_true_eq] at h1
      by_cases hbc : b = c
      · subst hbc
        simp [strLeB, if_neg hab, h1]
      · simp only [strLeB, if_neg hbc, decide_eq_true_eq] at h2
        have hac : a.toNat < c.toNat := Nat.lt_trans h1 h2
        have : a ≠ c := fun h => absurd (h ▸ hac) (Nat.lt_irrefl _)
        simp [strLeB, this, hac]

theorem string_data_inj {a b : String} (h : a.data = b.data) : a = b :=
  congrArg String.mk h

instance : IsTotal String pyLe := ⟨fun a b => strLeB_total a.data b.data⟩

instance : IsTrans String pyLe := ⟨fun _ _ _ h1 h2 => strLeB_trans _ _ _ h1 h2⟩

instance : IsAntisymm String pyLe :=
  ⟨fun _ _ h1 h2 => string_data_inj (strLeB_antisymm _ _ h1 h2)⟩

instance : IsRefl String pyLe := ⟨fun a => strLeB_refl a.data⟩

theorem pyLe_refl (a : String) : pyLe a a := strLeB_refl a.data

theorem pyLe_total (a b : String) : pyLe a b ∨ pyLe b a := strLeB_total a.data b.data

theorem pyLe_antisymm {a b : String} (h1 : pyLe a b) (h2 : pyLe b a) : a = b :=
  string_data_inj (strLeB_antisymm _ _ h1 h2)

/-- Strictness: `a < b` in Python iff `a <= b` and `a ≠ b`. -/
theorem pyLtB_iff {a b : String} : pyLtB a b = true ↔ (pyLe a b ∧ a ≠ b) := by
  constructor
  · intro h
    have hba : pyLeB b a = false := by simpa [pyLtB] using h
    have hnot : ¬ pyLe b a := by simp [pyLe, hba]
    rcases pyLe_total a b with hle | hle
    · exact ⟨hle, fun he => hnot (he ▸ pyLe_refl a)⟩
    · exact absurd hle hnot
  · rintro ⟨hle, hne⟩
    have hnot : ¬ pyLe b a := fun h => hne (pyLe_antisymm hle h)
    have hba : pyLeB b a = false := by
      cases hba : pyLeB b a
      · rfl
      · exact absurd hba hnot
    simp [pyLtB, hba]

/-- Runtime errors that the Python code can raise. -/
inductive PyErr where
  | keyError
  | indexError
  | valueError
deriving DecidableEq

/-- CSV cell and dict values: a Python int, a string (everything read
back from a CSV is a string), or Python's `None` (a missing cell under
`csv.DictReader`, and the "no last battled week" result). -/
inductive Val where
  | vInt (n : Int)
  | vStr (s : String)
  | vNone
deriving DecidableEq

/-- Python truthiness of a value: `0`, `""` and `None` are falsy. -/
def pyTruthy : Val → Bool
  | .vInt n => n != 0
  | .vStr s => s != ""
  | .vNone => false

/-- Digits of a decimal numeral; `Option.none` when the list is empty or
contains a non-digit (Python `int(...)` raises `ValueError` there). -/
def parseDigits (cs : List Char) : Option Nat :=
  if cs.isEmpty then Option.none
  else if cs.all Char.isDigit then
    Option.some (cs.foldl (fun a c => a * 10 + (c.toNat - 48)) 0)
  else Option.none

/-- Whitespace stripping of Python `int(str)`. -/
def pyStrip (cs : List Char) : List Char :=
  ((cs.dropWhile Char.isWhitespace).reverse.dropWhile Char.isWhitespace).reverse

/-- Python `int(s)` on a string: strips whitespace, allows one sign, then
requires a nonempty run of digits. -/
def parseIntStr (s : String) : Option Int :=
  match pyStrip s.data with
  | '-' :: rest => (parseDigits rest).map (fun n => -(n : Int))
  | '+' :: rest => (parseDigits rest).map (fun n => (n : Int))
  | cs => (parseDigits cs).map (fun n => (n : Int))

/-- Python `int(v)`: identity on ints, string parsing on strings,
`TypeError`-like failure on `None`. -/
def pyInt : Val → Option Int
  | .vInt n => Option.some n
  | .vStr s => parseIntStr s
  | .vNone => Option.none

/-- Lookup in a Python dict modelled as an association list (first
matching key; Python dicts have unique keys). -/
def alGet {α : Type} : List (String × α) → String → Option α
  | [], _ => Option.none
  | p :: ps, k => if p.1 = k then Option.some p.2 else alGet ps k

/-- Python dict assignment `d[k] = v`: replaces the value in place when
the key exists, otherwise appends the new pair at the end (dicts keep
insertion order). -/
def alSet {α : Type} : List (String × α) → String → α → List (String × α)
  | [], k, v => [(k, v)]
  | p :: ps, k, v => if p.1 = k then (k, v) :: ps else p :: alSet ps k v

/-- Keys of a dict, in order. -/
def alKeys {α : Type} (l : List (String × α)) : List String := l.map Prod.fst

theorem alGet_alSet_self {α : Type} (l : List (String × α)) (k : String) (v : α) :
    alGet (alSet l k v) k = Option.some v := by
  induction l with
  | nil => simp [alGet, alSet]
  | cons p ps ih =>
    by_cases h : p.1 = k
    · simp [alSet, h, alGet]
    · simp [alSet, h, alGet, ih]

theorem alGet_alSet_ne {α : Type} (l : List (String × α)) (k j : String) (v : α)
    (h : j ≠ k) : alGet (alSet l k v) j = alGet l j := by
  induction l with
  | nil => simp [alGet, alSet, Ne.symm h]
  | cons p ps ih =>
    simp only [alSet]
    by_cases hp : p.1 = k
    · rw [if_pos hp]
      have hpj : p.1 ≠ j := fun he => h (by rw [← he, hp])
      simp [alGet, Ne.symm h, hpj]
    · rw [if_neg hp]
      simp only [alGet]
      by_cases hj : p.1 = j
      · simp [hj]
      · simp [hj, ih]

theorem alKeys_cons {α : Type} (p : String × α) (ps : List (String × α)) :
    alKeys (p :: ps) = p.1 :: alKeys ps := rfl

theorem alGet_isSome_iff_mem {α : Type} (l : List (String × α)) (k : String) :
    (alGet l k).isSome = true ↔ k ∈ alKeys l := by
  induction l with
  | nil => simp [alGet, alKeys]
  | cons p ps ih =>
    by_cases h : p.1 = k
    · simp [alGet, h, alKeys]
    · simp [alGet, h, alKeys, ih, Ne.symm h]

theorem alKeys_alSet {α : Type} (l : List (String × α)) (k : String) (v : α) :
    alKeys (alSet l k v) = if k ∈ alKeys l then alKeys l else alKeys l ++ [k] := by
  induction l with
  | nil => simp [alSet, alKeys]
  | cons p ps ih =>
    by_cases h : p.1 = k
    · have hk : k ∈ alKeys (p :: ps) := by simp [alKeys_cons, h.symm]
      rw [if_pos hk]
      simp only [alSet, if_pos h, alKeys_cons]
      rw [h]
    · simp only [alSet, if_neg h, alKeys_cons, ih]
      by_cases hm : k ∈ alKeys ps
      · rw [if_pos hm, if_pos (show k ∈ p.1 :: alKeys ps by simp [hm])]
      · rw [if_neg hm, if_neg (show ¬ k ∈ p.1 :: alKeys ps by simp [hm, Ne.symm h])]
        rfl

theorem alKeys_nodup_alSet {α : Type} (l : List (String × α)) (k : String) (v : α)
    (h : (alKeys l).Nodup) : (alKeys (alSet l k v)).Nodup := by
  rw [alKeys_alSet]
  by_cases hm : k ∈ alKeys l
  · simpa [hm] using h
  · rw [if_neg hm]
    refine h.append (List.nodup_singleton k) ?_
    intro a ha hb
    simp only [List.mem_singleton] at hb
    subst hb
    exact hm ha

/-- Key filter of src/main.py lines 86-88, 109-111 and 132-134: a column
is a week column unless it is the username column or one of the two
derived fields. -/
def isSpecial (k : String) : Bool :=
  k == "" || k == "# wins this week" || k == "Last battled week"

/-- A per-user record: a Python dict from column name to cell value. -/
def Record : Type := List (String × Val)

/-- The whole weekly table: a Python dict from username to record. -/
def WeeklyData : Type := List (String × Record)

/-- Week columns of a record, in dict insertion order (the list
comprehension of lines 86-88 / 109-111 before sorting). -/
def weekKeys (r : Record) : List String :=
  (alKeys r).filter (fun k => !(isSpecial k))

/-- Inner loop of determine_last_battled_week (lines 113-120), iterating
over the sorted week list from the most recent to the oldest.  The
argument `next` holds the week visited just before the current one, that
is weeks[i+1]; at the most recent week there is none, and the access
weeks[i+1] raises IndexError. -/
def lbwLoop (ud : Record) (total : Int) : List String → Option String → Except PyErr (Option String)
  | [], _ => .ok Option.none
  | w :: rest, next =>
      match alGet ud w with
      | Option.none => .error PyErr.keyError
      | Option.some v =>
          if !(pyTruthy v) then
            match next with
            | Option.none => .error PyErr.indexError
            | Option.some nw => .ok (Option.some nw)
          else
            match pyInt v with
            | Option.none => .error PyErr.valueError
            | Option.some k => if total - k > 0 then .ok (Option.some w) else lbwLoop ud total rest (Option.some w)

/-- determine_last_battled_week of src/main.py (lines 101-122). -/
def determine_last_battled_week (user_data : Record) (total_wins : Int) : Except PyErr (Option String) :=
  lbwLoop user_data total_wins ((pySorted (weekKeys user_data)).reverse) Option.none

/-- Python value stored in the "Last battled week" field. -/
def optToVal : Option String → Val
  | Option.none => Val.vNone
  | Option.some s => Val.vStr s

/-- Record that process_user works on: the user's existing record, or a
fresh one holding only the username column (lines 80-81). -/
def userRec (weekly_data : WeeklyData) (username : String) : Record :=
  (alGet weekly_data username).getD [("", Val.vStr username)]

/-- process_user of src/main.py (lines 67-98).  The fetched total
(fetch_total_wins of line 77) is passed in as `total_wins`; the printed
progress line is not part of the value-level model.  Failure of `int(...)`
on the previous week's value, and any error inside
determine_last_battled_week, abort with the corresponding Python
exception. -/
def process_user (username : String) (weekly_data : WeeklyData) (current_week : String)
    (total_wins : Int) : Except PyErr WeeklyData :=
  let wd1 : WeeklyData :=
    if (alGet weekly_data username).isSome then weekly_data
    else alSet weekly_data username [("", Val.vStr username)]
  let r0 : Record := (alGet wd1 username).getD []
  let r1 : Record := alSet r0 current_week (Val.vInt total_wins)
  let weeks : List String := pySorted (weekKeys r1)
  let last_week : Option String :=
    if 1 < weeks.length then weeks[weeks.length - 2]? else Option.none
  let deltaE : Except PyErr Int :=
    match last_week with
    | Option.none => .ok total_wins
    | Option.some lw =>
        match pyInt ((alGet r1 lw).getD (Val.vInt 0)) with
        | Option.none => .error PyErr.valueError
        | Option.some k => .ok (total_wins - k)
  match deltaE with
  | .error e => .error e
  | .ok wins_this_week =>
      let r2 : Record := alSet r1 "# wins this week" (Val.vInt wins_this_week)
      match determine_last_battled_week r2 total_wins with
      | .error e => .error e
      | .ok lbw =>
          let r3 : Record := alSet r2 "Last battled week" (optToVal lbw)
          .ok (alSet wd1 username r3)

/-- Most recent week of a record that lies strictly before the current
week, as the specification describes it: the largest week column below
`current_week` (none when there is no such column). -/
def prevWeekBefore (r : Record) (current_week : String) : Option String :=
  (pySorted ((weekKeys r).filter (fun k => pyLtB k current_week))).getLast?

/-- The "# wins this week" value the specification describes: the fetched
total minus the integer recorded for the most recent week strictly before
the current week, or the fetched total itself when there is no week
before the current week. -/
def specWinsThisWeek (r : Record) (current_week : String) (total : Int) : Int :=
  match prevWeekBefore r current_week with
  | Option.none => total
  | Option.some pw => total - (((alGet r pw).bind pyInt).getD 0)

/-- The "Last battled week" value the specification describes: the most
recent recorded week whose stored win total is strictly less than the
fetched total, or none when no recorded week has a strictly smaller
total. -/
def specLastBattled (r : Record) (total : Int) : Option String :=
  ((pySorted (weekKeys r)).reverse).find?
    (fun w =>
      match (alGet r w).bind pyInt with
      | Option.some k => decide (k < total)
      | Option.none => false)

/-- One tr.recordRow of the fetched page: the stripped text of its
td.name cell when present, and the data-won attribute string of its
td.won cell when present. -/
structure RecRow where
  nameCell : Option String
  wonCell : Option String
deriving DecidableEq

/-- Parsed page body: the table.recordsTable, when the page has one. -/
structure Page where
  table : Option (List RecRow)
deriving DecidableEq

/-- HTTP response for a record page. -/
structure Response where
  status : Nat
  page : Page
deriving DecidableEq

/-- Row loop of fetch_total_wins (lines 29-39): for every row that has
both cells, Python first parses int(data-won) - raising ValueError on a
non-numeric attribute even for rows whose challenger is filtered out -
and then adds the wins when the challenger name is in the roster. -/
def sumRows (challengers : List String) : List RecRow → Except PyErr Int
  | [] => .ok 0
  | row :: rest =>
      match row.nameCell, row.wonCell with
      | Option.some n, Option.some w =>
          (match parseIntStr w with
           | Option.none => .error PyErr.valueError
           | Option.some k =>
               (sumRows challengers rest).map
                 (fun s => (if challengers.contains n then k else 0) + s))
      | _, _ => sumRows challengers rest

def base_url : String := "https://www.neopets.com/dome/record.phtml?username="

/-- Failure line printed by fetch_total_wins (line 43). -/
def fetchFailMsg (username : String) (status : Nat) : String :=
  "Failed to fetch data for " ++ username ++ ". HTTP Status Code: " ++ toString status

/-- fetch_total_wins of src/main.py (lines 11-44), over an explicit HTTP
response.  Returns the computed total (or the raised exception) together
with the list of printed lines; a missing recordsTable yields 0, and a
non-200 status is logged and yields 0. -/
def fetch_total_wins (challengers : List String) (username : String) (resp : Response) :
    Except PyErr Int × List String :=
  if resp.status == 200 then
    (match resp.page.table with
     | Option.none => .ok 0
     | Option.some rows => sumRows challengers rows, [])
  else
    (.ok 0, [fetchFailMsg username resp.status])

/-- The sum the specification describes for a fetched page: data-won
values of exactly those record rows (with both cells present) whose
challenger name is in the roster; all other rows contribute nothing. -/
def qualifyingSum (challengers : List String) (rows : List RecRow) : Int :=
  (rows.map (fun row =>
    match row.nameCell, row.wonCell with
    | Option.some n, Option.some w =>
        if challengers.contains n then (parseIntStr w).getD 0 else 0
    | _, _ => 0)).sum

/-- One row as csv.DictReader yields it (line 59): header names paired
with field values; a field missing from a short row is None.  Surplus
fields beyond the header are dropped (DictReader moves them under the
None key, which no caller reads). -/
def dictReaderRow (header fields : List String) : Record :=
  (List.range header.length).map
    (fun i => (header.getD i "",
      match fields[i]? with
      | Option.some s => Val.vStr s
      | Option.none => Val.vNone))

/-- Row loop of load_weekly_data (lines 60-63): keep a row iff row[""]
is a username in the valid set; a header without the "" column makes
row[""] raise KeyError. -/
def loadRows (header : List String) (valid_users : List String) :
    List (List String) → WeeklyData → Except PyErr WeeklyData
  | [], wd => .ok wd
  | fields :: rest, wd =>
      let row : Record := dictReaderRow header fields
      match alGet row "" with
      | Option.none => .error PyErr.keyError
      | Option.some v =>
          match v with
          | Val.vStr u =>
              loadRows header valid_users rest
                (if valid_users.contains u then alSet wd u row else wd)
          | _ => loadRows header valid_users rest wd

/-- load_weekly_data of src/main.py (lines 47-64), over the raw CSV rows
of the input file (header row first).  The os.path.exists check is made
by the caller: a missing file is modelled as no raw rows at all. -/
def load_weekly_data (rawRows : List (List String)) (valid_users : List String) :
    Except PyErr WeeklyData :=
  match rawRows with
  | [] => .ok []
  | header :: dataRows => loadRows header valid_users dataRows []

/-- The per-user loop of update_or_create_csv (lines 159-161); the crawl
delay has no effect on the table. -/
def processAll (current_week : String) (totals : String → Int) :
    List String → WeeklyData → Except PyErr WeeklyData
  | [], wd => .ok wd
  | u :: rest, wd =>
      match process_user u wd current_week (totals u) with
      | .error e => .error e
      | .ok wd2 => processAll current_week totals rest wd2

/-- update_or_create_csv of src/main.py (lines 144-164) at the level of
the in-memory table: load the existing rows (none when the input file
does not exist), then process every username in order.  `current_week`
abstracts the Monday-of-today ISO date of line 152 and `totals` the
fetch of line 77; write_output_csv then persists exactly the rows of the
returned table. -/
def update_or_create_csv (rawInput : Option (List (List String))) (usernames : List String)
    (current_week : String) (totals : String → Int) : Except PyErr WeeklyData :=
  match (match rawInput with
         | Option.none => Except.ok ([] : WeeklyData)
         | Option.some rows => load_weekly_data rows usernames) with
  | .error e => .error e
  | .ok wd => processAll current_week totals usernames wd

/-- Observable actions of the script. -/
inductive Effect where
  | print (msg : String)
  | readFile (path : String)
  | httpGet (url : String)
  | sleep (seconds : Nat)
  | writeFile (path : String)
deriving DecidableEq

/-- Environment the script runs against: the parsed CSV rows behind each
existing path, the HTTP response for each URL, and the current week
string of line 152. -/
structure Env where
  csvRows : String → Option (List (List String))
  http : String → Response
  currentWeek : String

/-- Per-user loop of update_or_create_csv as an effect trace: fetch
(with its failure log), the progress print, processing, and the crawl
delay; a raised exception aborts the program. -/
def runUsers (challengers : List String) (env : Env) (current_week : String) :
    List String → WeeklyData → List Effect × Except PyErr WeeklyData
  | [], wd => ([], .ok wd)
  | u :: rest, wd =>
      let resp : Response := env.http (base_url ++ u)
      let fr := fetch_total_wins challengers u resp
      let eff0 : List Effect := Effect.httpGet (base_url ++ u) :: fr.2.map Effect.print
      match fr.1 with
      | .error e => (eff0, .error e)
      | .ok total =>
          let eff1 : List Effect := eff0 ++ [Effect.print ("Processing " ++ u)]
          match process_user u wd current_week total with
          | .error e => (eff1, .error e)
          | .ok wd2 =>
              let r := runUsers challengers env current_week rest wd2
              (eff1 ++ [Effect.sleep 60] ++ r.1, r.2)

/-- Effect trace of main (lines 167-179): read the usernames CSV (a
missing file or an empty row aborts), then update_or_create_csv: read
the input CSV when it exists, run the users, and write the output CSV
if no exception was raised. -/
def mainEffects (challengers : List String) (env : Env)
    (usernamesPath inputPath outputPath : String) : List Effect :=
  Effect.readFile usernamesPath ::
  (match env.csvRows usernamesPath with
   | Option.none => []
   | Option.some rows =>
       match rows.mapM List.head? with
       | Option.none => []
       | Option.some usernames =>
           (if (env.csvRows inputPath).isSome then [Effect.readFile inputPath] else []) ++
           (match (match env.csvRows inputPath with
                   | Option.none => Except.ok ([] : WeeklyData)
                   | Option.some rs => load_weekly_data rs usernames) with
            | .error _ => []
            | .ok wd =>
                let r := runUsers challengers env env.currentWeek usernames wd
                r.1 ++ (match r.2 with
                        | .ok _ => [Effect.writeFile outputPath]
                        | .error _ => [])))

def usageMsg : String :=
  "Usage: python main.py <usernames_csv_path> [<input_csv_path>] [<output_csv_path>]"

/-- Argument binding of the __main__ block (lines 181-188): one required
positional usernames path, then the optional input and output CSV paths,
each defaulting to default.csv. -/
def parseArgs (argv : List String) : Option (String × String × String) :=
  if argv.length < 2 then Option.none
  else Option.some (argv.getD 1 "", argv.getD 2 "default.csv", argv.getD 3 "default.csv")

/-- The __main__ block (lines 181-188) as an effect trace: with fewer
than two argv entries it only prints the usage line; otherwise it runs
main on the bound paths. -/
def entryEffects (challengers : List String) (env : Env) (argv : List String) : List Effect :=
  if argv.length < 2 then [Effect.print usageMsg]
  else
    mainEffects challengers env (argv.getD 1 "") (argv.getD 2 "default.csv") (argv.getD 3 "default.csv")

/-- ISO date shape YYYY-MM-DD: ten chars, dashes at positions 4 and 7,
digits elsewhere. -/
def isDateString (s : String) : Bool :=
  s.length == 10 &&
    (List.range 10).all (fun i =>
      match s.data[i]? with
      | Option.some c => if i == 4 || i == 7 then c == '-' else c.isDigit
      | Option.none => false)

theorem pySorted_sorted (l : List String) : List.Sorted pyLe (pySorted l) :=
  List.sorted_insertionSort pyLe l

theorem pySorted_perm (l : List String) : (pySorted l).Perm l :=
  List.perm_insertionSort pyLe l

theorem mem_pySorted {l : List String} {k : String} : k ∈ pySorted l ↔ k ∈ l :=
  (pySorted_perm l).mem_iff

theorem mem_weekKeys {r : Record} {k : String} :
    k ∈ weekKeys r ↔ (k ∈ alKeys r ∧ isSpecial k = false) := by
  simp [weekKeys, List.mem_filter]

theorem weekKeys_alSet_mem {r : Record} {cw : String} (v : Val) (hm : cw ∈ alKeys r) :
    weekKeys (alSet r cw v) = weekKeys r := by
  simp [weekKeys, alKeys_alSet, hm]

theorem weekKeys_alSet_not_mem {r : Record} {cw : String} (v : Val)
    (hm : ¬ cw ∈ alKeys r) (hcw : isSpecial cw = false) :
    weekKeys (alSet r cw v) = weekKeys r ++ [cw] := by
  simp [weekKeys, alKeys_alSet, hm, List.filter_append, hcw]

theorem pyLtB_self (k : String) : pyLtB k k = false := by
  have h : pyLeB k k = true := pyLe_refl k
  simp [pyLtB, h]

theorem pyLtB_of_le_ne {k cw : String} (h1 : pyLe k cw) (h2 : k ≠ cw) :
    pyLtB k cw = true := pyLtB_iff.mpr ⟨h1, h2⟩

/-- Decomposition of the sorted week list after the current week has been
stored: when every previously recorded week is at or before the current
week, sorting puts the current week last and the weeks strictly before it
(in sorted order) in front. -/
theorem pySorted_weekKeys_alSet (r : Record) (cw : String) (v : Val)
    (hnd : (alKeys r).Nodup) (hcw : isSpecial cw = false)
    (hle : ∀ k ∈ weekKeys r, pyLe k cw) :
    pySorted (weekKeys (alSet r cw v))
      = pySorted ((weekKeys r).filter (fun k => pyLtB k cw)) ++ [cw] := by
  have hperm : (weekKeys (alSet r cw v)).Perm
      (((weekKeys r).filter (fun k => pyLtB k cw)) ++ [cw]) := by
    by_cases hm : cw ∈ alKeys r
    · rw [weekKeys_alSet_mem v hm]
      have hcwmem : cw ∈ weekKeys r := mem_weekKeys.mpr ⟨hm, hcw⟩
      have hndw : (weekKeys r).Nodup := hnd.filter _
      have h2 : (weekKeys r).erase cw = (weekKeys r).filter (fun k => k != cw) :=
        hndw.erase_eq_filter cw
      have h3 : (weekKeys r).filter (fun k => k != cw)
          = (weekKeys r).filter (fun k => pyLtB k cw) := by
        apply List.filter_congr
        intro k hk
        by_cases hkc : k = cw
        · subst hkc; simp [pyLtB_self]
        · simp [hkc, pyLtB_of_le_ne (hle k hk) hkc]
      have h1 : (weekKeys r).Perm (cw :: (weekKeys r).filter (fun k => pyLtB k cw)) := by
        rw [← h3, ← h2]
        exact List.perm_cons_erase hcwmem
      exact h1.trans (List.perm_append_singleton _ _).symm
    · rw [weekKeys_alSet_not_mem v hm hcw]
      have hid : (weekKeys r).filter (fun k => pyLtB k cw) = weekKeys r := by
        apply List.filter_eq_self.mpr
        intro k hk
        have hkc : k ≠ cw := fun he => hm (mem_weekKeys.mp (he ▸ hk)).1
        exact pyLtB_of_le_ne (hle k hk) hkc
      rw [hid]
  refine List.eq_of_perm_of_sorted ?_ (pySorted_sorted _) ?_
  · exact (pySorted_perm _).trans
      (hperm.trans (List.Perm.append (pySorted_perm _).symm (List.Perm.refl _)))
  · refine List.pairwise_append.mpr ⟨pySorted_sorted _, List.pairwise_singleton _ _, ?_⟩
    intro x hx y hy
    rw [List.mem_singleton] at hy
    rw [hy]
    have hx2 : x ∈ (weekKeys r).filter (fun k => pyLtB k cw) := mem_pySorted.mp hx
    have hp : pyLtB x cw = true := (List.mem_filter.mp hx2).2
    exact (pyLtB_iff.mp hp).1

/-- Index arithmetic of line 89: on a sorted week list of the shape
`M ++ [cw]`, `weeks[-2] if len(weeks) > 1 else None` is exactly the last
element of `M`. -/
theorem appended_last_index (M : List String) (cw : String) :
    (if 1 < (M ++ [cw]).length then (M ++ [cw])[(M ++ [cw]).length - 2]? else Option.none)
      = M.getLast? := by
  cases M with
  | nil => simp
  | cons a M2 =>
    have h1 : 1 < ((a :: M2) ++ [cw]).length := by
      simp [List.length_append]
    rw [if_pos h1]
    have h2 : ((a :: M2) ++ [cw]).length - 2 = (a :: M2).length - 1 := by
      simp [List.length_append]
    rw [h2]
    rw [List.getElem?_append_left (by simp)]
    exact (List.getLast?_eq_getElem? _).symm

/-- The `last_week` of process_user (line 89) is the most recent week
strictly before the current one, once every prior week is at or before
the current week. -/
theorem last_week_is_prevWeekBefore (r : Record) (cw : String) (v : Val)
    (hnd : (alKeys r).Nodup) (hcw : isSpecial cw = false)
    (hle : ∀ k ∈ weekKeys r, pyLe k cw) :
    (if 1 < (pySorted (weekKeys (alSet r cw v))).length
     then (pySorted (weekKeys (alSet r cw v)))[(pySorted (weekKeys (alSet r cw v))).length - 2]?
     else Option.none) = prevWeekBefore r cw := by
  rw [pySorted_weekKeys_alSet r cw v hnd hcw hle]
  exact appended_last_index _ _

/-- Record process_user starts from, lines 80-81 put together. -/
theorem userRec_step (wd : WeeklyData) (u : String) :
    (alGet (if (alGet wd u).isSome then wd else alSet wd u [("", Val.vStr u)]) u).getD []
      = userRec wd u := by
  cases h : alGet wd u with
  | none => simp [h, alGet_alSet_self, userRec]
  | some r => simp [h, userRec]

/-- Successful runs of process_user only rewrite the processed user's
entry of the table. -/
theorem process_user_ok_shape (u cw : String) (wd d2 : WeeklyData) (total : Int)
    (hrun : process_user u wd cw total = .ok d2) :
    ∃ r3 : Record,
      d2 = alSet (if (alGet wd u).isSome then wd else alSet wd u [("", Val.vStr u)]) u r3 := by
  simp only [process_user] at hrun
  split at hrun
  · exact absurd hrun (by simp)
  · split at hrun
    · exact absurd hrun (by simp)
    · rw [Except.ok.injEq] at hrun
      exact ⟨_, hrun.symm⟩

/-- Frame property: a successful process_user run leaves every other
user's record untouched. -/
theorem process_user_frame (u cw : String) (wd d2 : WeeklyData) (total : Int)
    (hrun : process_user u wd cw total = .ok d2) (v : String) (hv : v ≠ u) :
    alGet d2 v = alGet wd v := by
  obtain ⟨r3, hd⟩ := process_user_ok_shape u cw wd d2 total hrun
  subst hd
  rw [alGet_alSet_ne _ _ _ _ hv]
  by_cases h : (alGet wd u).isSome
  · rw [if_pos h]
  · rw [if_neg h, alGet_alSet_ne _ _ _ _ hv]

/-- A successful process_user run adds exactly the processed username to
the key set of the table. -/
theorem process_user_keys (u cw : String) (wd d2 : WeeklyData) (total : Int)
    (hrun : process_user u wd cw total = .ok d2) (v : String) :
    (alGet d2 v).isSome = true ↔ (v = u ∨ (alGet wd v).isSome = true) := by
  by_cases hv : v = u
  · subst hv
    obtain ⟨r3, hd⟩ := process_user_ok_shape v cw wd d2 total hrun
    subst hd
    simp [alGet_alSet_self]
  · rw [process_user_frame u cw wd d2 total hrun v hv]
    simp [hv]

theorem prevWeekBefore_mem {r : Record} {cw pw : String}
    (h : prevWeekBefore r cw = Option.some pw) :
    pw ∈ weekKeys r ∧ pw ≠ cw := by
  have hm : pw ∈ pySorted ((weekKeys r).filter (fun k => pyLtB k cw)) :=
    List.mem_of_getLast?_eq_some h
  have hm2 : pw ∈ (weekKeys r).filter (fun k => pyLtB k cw) := mem_pySorted.mp hm
  have hp : pyLtB pw cw = true := (List.mem_filter.mp hm2).2
  exact ⟨(List.mem_filter.mp hm2).1, (pyLtB_iff.mp hp).2⟩

theorem alGet_some_of_mem_weekKeys {r : Record} {w : String} (h : w ∈ weekKeys r) :
    ∃ v, alGet r w = Option.some v := by
  have hk : w ∈ alKeys r := (mem_weekKeys.mp h).1
  have hs := (alGet_isSome_iff_mem r w).mpr hk
  cases he : alGet r w with
  | none => rw [he] at hs; simp at hs
  | some v => exact ⟨v, rfl⟩

/-- Core delta characterization of process_user: under distinct record
keys, with every recorded week at or before the current week, a
successful run stores `total - (value of the most recent week strictly
before the current week)` in "# wins this week", and `total` itself when
no week lies strictly before the current week. -/
theorem process_user_delta (username current_week : String) (wd d2 : WeeklyData) (total : Int)
    (hnd : (alKeys (userRec wd username)).Nodup)
    (hcw : isSpecial current_week = false)
    (hle : ∀ k ∈ weekKeys (userRec wd username), pyLe k current_week)
    (hrun : process_user username wd current_week total = .ok d2) :
    (alGet d2 username).bind (fun r => alGet r "# wins this week")
      = Option.some (Val.vInt (specWinsThisWeek (userRec wd username) current_week total)) := by
  simp only [process_user] at hrun
  rw [userRec_step] at hrun
  rw [last_week_is_prevWeekBefore (userRec wd username) current_week (Val.vInt total)
    hnd hcw hle] at hrun
  cases hpw : prevWeekBefore (userRec wd username) current_week with
  | none =>
      simp only [hpw] at hrun
      split at hrun
      · exact absurd hrun (by simp)
      · rw [Except.ok.injEq] at hrun
        subst hrun
        rw [alGet_alSet_self]
        simp only [Option.some_bind]
        rw [alGet_alSet_ne _ _ _ _ (by decide : ("# wins this week" : String) ≠ "Last battled week")]
        rw [alGet_alSet_self]
        simp [specWinsThisWeek, hpw]
  | some pw =>
      obtain ⟨hpmem, hpne⟩ := prevWeekBefore_mem hpw
      obtain ⟨v, hv⟩ := alGet_some_of_mem_weekKeys hpmem
      simp only [hpw] at hrun
      rw [alGet_alSet_ne _ _ _ _ hpne, hv] at hrun
      simp only [Option.getD_some] at hrun
      cases hpi : pyInt v with
      | none =>
          simp only [hpi] at hrun
          exact absurd hrun (by simp)
      | some k =>
          simp only [hpi] at hrun
          split at hrun
          · exact absurd hrun (by simp)
          · rw [Except.ok.injEq] at hrun
            subst hrun
            rw [alGet_alSet_self]
            simp only [Option.some_bind]
            rw [alGet_alSet_ne _ _ _ _ (by decide : ("# wins this week" : String) ≠ "Last battled week")]
            rw [alGet_alSet_self]
            simp [specWinsThisWeek, hpw, hv, hpi]

theorem alGet_some_of_mem_keys {α : Type} {l : List (String × α)} {k : String}
    (h : k ∈ alKeys l) : ∃ v, alGet l k = Option.some v := by
  have hs := (alGet_isSome_iff_mem l k).mpr h
  cases he : alGet l k with
  | none => rw [he] at hs; simp at hs
  | some v => exact ⟨v, rfl⟩

/-- The scan of determine_last_battled_week agrees with a reverse find
as long as every visited week has a truthy value that int() accepts: the
falsy branch (and with it the weeks[i+1] access) is never taken. -/
theorem lbwLoop_all_truthy (ud : Record) (total : Int) :
    ∀ (ws : List String) (next : Option String),
    (∀ w ∈ ws, w ∈ alKeys ud) →
    (∀ w ∈ ws, ∀ v, alGet ud w = Option.some v →
        pyTruthy v = true ∧ (pyInt v).isSome = true) →
    lbwLoop ud total ws next =
      .ok (ws.find? (fun w =>
        match (alGet ud w).bind pyInt with
        | Option.some k => decide (k < total)
        | Option.none => false)) := by
  intro ws
  induction ws with
  | nil => intro next _ _; rfl
  | cons w rest ih =>
      intro next hmem hval
      obtain ⟨v, hv⟩ := alGet_some_of_mem_keys (hmem w (by simp))
      obtain ⟨htr, his⟩ := hval w (by simp) v hv
      obtain ⟨k, hk⟩ : ∃ k, pyInt v = Option.some k := by
        cases he : pyInt v with
        | none => rw [he] at his; simp at his
        | some k => exact ⟨k, rfl⟩
      by_cases hlt : total - k > 0
      · rw [List.find?_cons_of_pos]
        · simp [lbwLoop, hv, htr, hk, hlt]
        · rw [hv]
          simp [hk, Int.sub_pos.mp hlt]
      · rw [List.find?_cons_of_neg]
        · have hrec := ih (Option.some w) (fun x hx => hmem x (by simp [hx]))
            (fun x hx => hval x (by simp [hx]))
          simpa [lbwLoop, hv, htr, hk, hlt] using hrec
        · have hnlt : ¬ k < total := fun hco => hlt (Int.sub_pos.mpr hco)
          rw [hv]
          simp [hk, hnlt]

theorem loadRows_keys (header valid : List String) :
    ∀ (rows : List (List String)) (wd d : WeeklyData),
    loadRows header valid rows wd = .ok d → ∀ v, (alGet d v).isSome = true →
      (v ∈ valid ∨ (alGet wd v).isSome = true)
  | [], wd, d, h, v, hv => by
      simp only [loadRows, Except.ok.injEq] at h
      subst h
      exact Or.inr hv
  | fields :: rest, wd, d, h, v, hv => by
      simp only [loadRows] at h
      cases hg : alGet (dictReaderRow header fields) "" with
      | none => simp only [hg] at h; exact absurd h (by simp)
      | some u =>
          cases u with
          | vInt n => simp only [hg] at h; exact loadRows_keys header valid rest wd d h v hv
          | vNone => simp only [hg] at h; exact loadRows_keys header valid rest wd d h v hv
          | vStr s =>
              simp only [hg] at h
              by_cases hc : valid.contains s
              · rw [if_pos hc] at h
                rcases loadRows_keys header valid rest _ d h v hv with hin | hs2
                · exact Or.inl hin
                · by_cases hvs : v = s
                  · subst hvs
                    have : v ∈ valid := by simpa using hc
                    exact Or.inl this
                  · rw [alGet_alSet_ne _ _ _ _ hvs] at hs2
                    exact Or.inr hs2
              · rw [if_neg hc] at h
                exact loadRows_keys header valid rest wd d h v hv

theorem load_weekly_data_keys (rows : List (List String)) (valid : List String)
    (wd0 : WeeklyData) (h : load_weekly_data rows valid = .ok wd0) (v : String)
    (hv : (alGet wd0 v).isSome = true) : v ∈ valid := by
  cases rows with
  | nil =>
      simp only [load_weekly_data, Except.ok.injEq] at h
      subst h
      simp [alGet] at hv
  | cons header dataRows =>
      simp only [load_weekly_data] at h
      rcases loadRows_keys header valid dataRows [] wd0 h v hv with hin | hs
      · exact hin
      · simp [alGet] at hs

theorem processAll_keys (current_week : String) (totals : String → Int) :
    ∀ (us : List String) (wd d : WeeklyData),
    processAll current_week totals us wd = .ok d → ∀ v,
      ((alGet d v).isSome = true ↔ (v ∈ us ∨ (alGet wd v).isSome = true))
  | [], wd, d, h, v => by
      simp only [processAll, Except.ok.injEq] at h
      subst h
      simp
  | u :: rest, wd, d, h, v => by
      simp only [processAll] at h
      cases hp : process_user u wd current_week (totals u) with
      | error e => rw [hp] at h; exact absurd h (by simp)
      | ok wd2 =>
          rw [hp] at h
          have ihh := processAll_keys current_week totals rest wd2 d h v
          have hk := process_user_keys u current_week wd wd2 (totals u) hp v
          constructor
          · intro hs
            rcases ihh.mp hs with hin | hs2
            · exact Or.inl (by simp [hin])
            · rcases hk.mp hs2 with he | hs3
              · exact Or.inl (by simp [he])
              · exact Or.inr hs3
          · intro hor
            apply ihh.mpr
            rcases hor with hin | hs2
            · rcases List.mem_cons.mp hin with he | hr
              · exact Or.inr (hk.mpr (Or.inl he))
              · exact Or.inl hr
            · exact Or.inr (hk.mpr (Or.inr hs2))

theorem isSpecial_false_iff {k : String} :
    isSpecial k = false ↔ (k ≠ "" ∧ k ≠ "# wins this week" ∧ k ≠ "Last battled week") := by
  simp [isSpecial, and_assoc]

theorem of_if_opt_some {c : Prop} [Decidable c] {x : Option String} {lw : String}
    (h : (if c then x else Option.none) = Option.some lw) : x = Option.some lw := by
  by_cases hc : c
  · rwa [if_pos hc] at h
  · rw [if_neg hc] at h
    exact absurd h (by simp)

theorem mem_weekKeys_of_alSet_ne {r : Record} {cw lw : String} {v : Val}
    (h : lw ∈ weekKeys (alSet r cw v)) (hne : lw ≠ cw) : lw ∈ weekKeys r := by
  obtain ⟨hk, hs⟩ := mem_weekKeys.mp h
  rw [alKeys_alSet] at hk
  by_cases hm : cw ∈ alKeys r
  · rw [if_pos hm] at hk
    exact mem_weekKeys.mpr ⟨hk, hs⟩
  · rw [if_neg hm] at hk
    rcases List.mem_append.mp hk with h1 | h1
    · exact mem_weekKeys.mpr ⟨h1, hs⟩
    · rw [List.mem_singleton] at h1
      exact absurd h1 hne

/-- determine_last_battled_week agrees with the reverse-scan
specification whenever every recorded week value is truthy and parses as
an int. -/
theorem determine_matches_spec_core (ud : Record) (total : Int)
    (hval : ∀ w ∈ weekKeys ud, ∀ v, alGet ud w = Option.some v →
        pyTruthy v = true ∧ (pyInt v).isSome = true) :
    determine_last_battled_week ud total = .ok (specLastBattled ud total) :=
  lbwLoop_all_truthy ud total ((pySorted (weekKeys ud)).reverse) Option.none
    (fun _w hw => (mem_weekKeys.mp (mem_pySorted.mp (List.mem_reverse.mp hw))).1)
    (fun w hw => hval w (mem_pySorted.mp (List.mem_reverse.mp hw)))

/-- Invariant core for process_user: with date-shaped keys, non-negative
integer week values bounded by the fetched total, and a non-negative
total, a successful run keeps every non-special column a date string
with a non-negative integer value and stores a non-negative delta. -/
theorem process_user_invariant_core
    (username current_week : String) (wd d2 : WeeklyData) (total : Int)
    (hval : ∀ w ∈ weekKeys (userRec wd username), ∀ v,
        alGet (userRec wd username) w = Option.some v →
        ∃ n : Int, pyInt v = Option.some n ∧ 0 ≤ n ∧ n ≤ total)
    (hdate : ∀ w ∈ weekKeys (userRec wd username), isDateString w = true)
    (hcwd : isDateString current_week = true)
    (htot : 0 ≤ total)
    (hrun : process_user username wd current_week total = .ok d2) :
    (∀ k, isSpecial k = false → ∀ v, alGet ((alGet d2 username).getD []) k = Option.some v →
        isDateString k = true ∧ ∃ n : Int, pyInt v = Option.some n ∧ 0 ≤ n)
    ∧ (∃ dlt : Int, alGet ((alGet d2 username).getD []) "# wins this week"
        = Option.some (Val.vInt dlt) ∧ 0 ≤ dlt) := by
  simp only [process_user] at hrun
  rw [userRec_step] at hrun
  set M := pySorted (weekKeys (alSet (userRec wd username) current_week (Val.vInt total)))
    with hM
  have finish :
      ∀ (wins : Int), 0 ≤ wins →
      ∀ (lbw : Option String),
      d2 = alSet (if (alGet wd username).isSome then wd
                  else alSet wd username [("", Val.vStr username)]) username
             (alSet (alSet (alSet (userRec wd username) current_week (Val.vInt total))
                "# wins this week" (Val.vInt wins)) "Last battled week" (optToVal lbw)) →
      (∀ k, isSpecial k = false → ∀ v, alGet ((alGet d2 username).getD []) k = Option.some v →
          isDateString k = true ∧ ∃ n : Int, pyInt v = Option.some n ∧ 0 ≤ n)
      ∧ (∃ dlt : Int, alGet ((alGet d2 username).getD []) "# wins this week"
          = Option.some (Val.vInt dlt) ∧ 0 ≤ dlt) := by
    intro wins hw lbw hd
    subst hd
    rw [alGet_alSet_self]
    simp only [Option.getD_some]
    constructor
    · intro k hks v hgv
      obtain ⟨hne1, hne2, hne3⟩ := isSpecial_false_iff.mp hks
      rw [alGet_alSet_ne _ _ _ _ hne3, alGet_alSet_ne _ _ _ _ hne2] at hgv
      by_cases hkc : k = current_week
      · subst hkc
        rw [alGet_alSet_self] at hgv
        simp only [Option.some.injEq] at hgv
        subst hgv
        exact ⟨hcwd, total, by simp [pyInt], htot⟩
      · rw [alGet_alSet_ne _ _ _ _ hkc] at hgv
        have hkm : k ∈ alKeys (userRec wd username) :=
          (alGet_isSome_iff_mem _ k).mp (by rw [hgv]; rfl)
        have hkw : k ∈ weekKeys (userRec wd username) := mem_weekKeys.mpr ⟨hkm, hks⟩
        obtain ⟨n, hpi, hn0, _⟩ := hval k hkw v hgv
        exact ⟨hdate k hkw, n, hpi, hn0⟩
    · refine ⟨wins, ?_, hw⟩
      rw [alGet_alSet_ne _ _ _ _
        (by decide : ("# wins this week" : String) ≠ "Last battled week")]
      rw [alGet_alSet_self]
  cases hql : (if 1 < M.length then M[M.length - 2]? else Option.none) with
  | none =>
      simp only [hql] at hrun
      split at hrun
      · exact absurd hrun (by simp)
      · rw [Except.ok.injEq] at hrun
        exact finish total htot _ hrun.symm
  | some lw =>
      have hlwM : lw ∈ M := List.getElem?_mem (of_if_opt_some hql)
      have hlw1 : lw ∈ weekKeys (alSet (userRec wd username) current_week (Val.vInt total)) := by
        rw [hM] at hlwM
        exact mem_pySorted.mp hlwM
      by_cases hlwc : lw = current_week
      · subst hlwc
        simp only [hql, alGet_alSet_self, Option.getD_some, pyInt] at hrun
        split at hrun
        · exact absurd hrun (by simp)
        · rw [Except.ok.injEq] at hrun
          exact finish (total - total) (by simp) _ hrun.symm
      · have hlwr : lw ∈ weekKeys (userRec wd username) := mem_weekKeys_of_alSet_ne hlw1 hlwc
        obtain ⟨v0, hv0⟩ := alGet_some_of_mem_keys (mem_weekKeys.mp hlwr).1
        obtain ⟨n, hpi0, hn0, hnT⟩ := hval lw hlwr v0 hv0
        simp only [hql] at hrun
        rw [alGet_alSet_ne _ _ _ _ hlwc, hv0] at hrun
        simp only [Option.getD_some, hpi0] at hrun
        split at hrun
        · exact absurd hrun (by simp)
        · rw [Except.ok.injEq] at hrun
          exact finish (total - n) (Int.sub_nonneg.mpr hnT) _ hrun.symm

/-- Row summation agrees with the qualifying-row sum as long as every
row that has both cells carries an int()-parseable data-won value. -/
theorem sumRows_eq_qualifyingSum (challengers : List String) :
    ∀ rows : List RecRow,
    (∀ row ∈ rows, row.nameCell.isSome = true → row.wonCell.isSome = true →
        (parseIntStr (row.wonCell.getD "")).isSome = true) →
    sumRows challengers rows = .ok (qualifyingSum challengers rows)
  | [], _ => by simp [sumRows, qualifyingSum]
  | row :: rest, hp => by
      have hrest := sumRows_eq_qualifyingSum challengers rest
        (fun r hr => hp r (by simp [hr]))
      cases hn : row.nameCell with
      | none =>
          simp [sumRows, hn, hrest, qualifyingSum]
      | some n =>
          cases hw : row.wonCell with
          | none => simp [sumRows, hn, hw, hrest, qualifyingSum]
          | some w =>
              obtain ⟨k, hk⟩ : ∃ k, parseIntStr w = Option.some k := by
                have hx := hp row (by simp) (by simp [hn]) (by simp [hw])
                rw [hw] at hx
                simp only [Option.getD_some] at hx
                cases hpw : parseIntStr w with
                | none => rw [hpw] at hx; simp at hx
                | some k => exact ⟨k, rfl⟩
              simp [sumRows, hn, hw, hk, hrest, qualifyingSum, Except.map]

/-- Claim C1 (amended): for every user record with distinct column keys
whose recorded weeks all lie at or before the current week, a successful
process_user run sets "# wins this week" to the fetched total minus the
integer value recorded for the most recent week strictly before the
current week; when the record has no week strictly before the current
week, the field equals the fetched total itself. -/
theorem c1_wins_this_week_delta (username current_week : String) (wd d2 : WeeklyData)
    (total : Int)
    (hnd : (alKeys (userRec wd username)).Nodup)
    (hcw : isSpecial current_week = false)
    (hle : ∀ k ∈ weekKeys (userRec wd username), pyLe k current_week)
    (hrun : process_user username wd current_week total = .ok d2) :
    (alGet d2 username).bind (fun r => alGet r "# wins this week")
      = Option.some (Val.vInt (specWinsThisWeek (userRec wd username) current_week total)) :=
  process_user_delta username current_week wd d2 total hnd hcw hle hrun

/-- Input table for the C1 witness: user u with one prior week. -/
def c1Table : WeeklyData := [("u", [("", Val.vStr "u"), ("2024-01-06", Val.vStr "3")])]

/-- Table returned by process_user on the C1 witness input. -/
def c1Result : WeeklyData :=
  match process_user "u" c1Table "2024-01-13" 10 with
  | .ok d => d
  | .error _ => []

/-- Witness for claim C1 at a concrete input (prior week 3 wins, fetched
total 10, so the stored delta is the specified 10 - 3). -/
theorem c1_wins_this_week_delta_witness :
    (alGet c1Result "u").bind (fun r => alGet r "# wins this week")
      = Option.some (Val.vInt (specWinsThisWeek (userRec c1Table "u") "2024-01-13" 10)) :=
  c1_wins_this_week_delta "u" "2024-01-13" c1Table c1Result 10
    (by decide) (by decide) (by decide) (by rfl)

/-- Counterexample to claim C1 as stated: a record already holding a
week after the current week.  The code subtracts the value stored under
the current week itself (weeks[-2]) and stores 0, while the claimed
value is the fetched total 10, the record having no week strictly before
the current week. -/
theorem c1_future_week_counterexample :
    ((process_user "u" [("u", [("", Val.vStr "u"), ("2024-12-31", Val.vStr "7")])]
        "2024-01-01" 10).toOption.bind
      (fun d => (alGet d "u").bind (fun r => alGet r "# wins this week")))
      = Option.some (Val.vInt 0)
    ∧ specWinsThisWeek [("", Val.vStr "u"), ("2024-12-31", Val.vStr "7")] "2024-01-01" 10 = 10
    ∧ Option.some (Val.vInt 0) ≠ Option.some (Val.vInt
        (specWinsThisWeek [("", Val.vStr "u"), ("2024-12-31", Val.vStr "7")] "2024-01-01" 10)) :=
  ⟨rfl, rfl, by decide⟩

/-- Claim C2 (amended): when every recorded week value is truthy and
int()-parseable, determine_last_battled_week returns the most recent
recorded week whose stored win total is strictly less than the fetched
total, or None when no recorded week has a strictly smaller total;
process_user stores this result in "Last battled week" (line 96). -/
theorem c2_last_battled_week (ud : Record) (total : Int)
    (hval : ∀ w ∈ weekKeys ud,
        pyTruthy ((alGet ud w).getD Val.vNone) = true ∧
        (pyInt ((alGet ud w).getD Val.vNone)).isSome = true) :
    determine_last_battled_week ud total = .ok (specLastBattled ud total) :=
  determine_matches_spec_core ud total (fun w hw v hv => by
    obtain ⟨h1, h2⟩ := hval w hw
    rw [hv] at h1 h2
    simp only [Option.getD_some] at h1 h2
    exact ⟨h1, h2⟩)

/-- Record for the C2 witness: two weeks, totals 3 then 10. -/
def c2Rec : Record :=
  [("", Val.vStr "u"), ("2024-01-06", Val.vInt 3), ("2024-01-13", Val.vInt 10)]

/-- Witness for claim C2 at a concrete record. -/
theorem c2_last_battled_week_witness :
    determine_last_battled_week c2Rec 10 = .ok (specLastBattled c2Rec 10) :=
  c2_last_battled_week c2Rec 10 (by decide)

/-- Counterexample to claim C2 as stated: with an older week stored as 0
(a falsy value strictly smaller than the fetched total 5), the code
takes the falsy branch and returns the week after it, 2024-01-08, whose
stored total 5 is not strictly smaller than 5; the claimed value is
2024-01-01. -/
theorem c2_last_battled_week_counterexample :
    determine_last_battled_week
        [("", Val.vStr "u"), ("2024-01-01", Val.vInt 0), ("2024-01-08", Val.vInt 5)] 5
      = .ok (Option.some "2024-01-08")
    ∧ specLastBattled
        [("", Val.vStr "u"), ("2024-01-01", Val.vInt 0), ("2024-01-08", Val.vInt 5)] 5
      = Option.some "2024-01-01"
    ∧ (Option.some "2024-01-08" : Option String) ≠ Option.some "2024-01-01" :=
  ⟨rfl, rfl, by decide⟩

/-- Claim C3: a non-200 response is logged and yields total 0, the very
value a 200 response with no records table (zero wins) yields, and the
result is an ordinary return, not an exception. -/
theorem c3_non200_zero (challengers : List String) (username : String) (resp : Response)
    (h : resp.status ≠ 200) :
    fetch_total_wins challengers username resp
      = (.ok 0, [fetchFailMsg username resp.status])
    ∧ fetch_total_wins challengers username ⟨200, ⟨Option.none⟩⟩ = (.ok 0, []) := by
  refine ⟨?_, rfl⟩
  simp [fetch_total_wins, h]

/-- Witness for claim C3 at a concrete 404 response. -/
theorem c3_non200_zero_witness :
    fetch_total_wins [] "u" ⟨404, ⟨Option.none⟩⟩ = (.ok 0, [fetchFailMsg "u" 404])
    ∧ fetch_total_wins [] "u" ⟨200, ⟨Option.none⟩⟩ = (.ok 0, []) :=
  c3_non200_zero [] "u" ⟨404, ⟨Option.none⟩⟩ (by decide)

/-- Claim C4 (amended): on a 200 page whose record rows (with both cells
present) all carry int()-parseable data-won attributes, fetch_total_wins
returns the sum of the data-won values of exactly those rows whose
challenger name is in the roster; other rows contribute nothing, and a
page with no records table yields 0. -/
theorem c4_fetch_sums_roster (challengers : List String) (username : String)
    (rows : List RecRow)
    (hparse : ∀ row ∈ rows, row.nameCell.isSome = true → row.wonCell.isSome = true →
        (parseIntStr (row.wonCell.getD "")).isSome = true) :
    (fetch_total_wins challengers username ⟨200, ⟨Option.some rows⟩⟩).1
      = .ok (qualifyingSum challengers rows)
    ∧ (fetch_total_wins challengers username ⟨200, ⟨Option.none⟩⟩).1 = .ok 0 := by
  refine ⟨?_, rfl⟩
  have h : (fetch_total_wins challengers username ⟨200, ⟨Option.some rows⟩⟩).1
      = sumRows challengers rows := rfl
  rw [h]
  exact sumRows_eq_qualifyingSum challengers rows hparse

/-- Rows for the C4 witness: one roster row, one other row, one row
without cells. -/
def c4Rows : List RecRow :=
  [⟨Option.some "Koi Warrior", Option.some "4"⟩,
   ⟨Option.some "Somebody Else", Option.some "9"⟩,
   ⟨Option.none, Option.none⟩]

/-- Witness for claim C4 at a concrete page: only the roster row counts. -/
theorem c4_fetch_sums_roster_witness :
    (fetch_total_wins ["Koi Warrior"] "u" ⟨200, ⟨Option.some c4Rows⟩⟩).1
      = .ok (qualifyingSum ["Koi Warrior"] c4Rows)
    ∧ (fetch_total_wins ["Koi Warrior"] "u" ⟨200, ⟨Option.none⟩⟩).1 = .ok 0 :=
  c4_fetch_sums_roster ["Koi Warrior"] "u" c4Rows (by decide)

/-- Counterexample to claim C4 as stated: a filtered-out row with a
non-numeric data-won attribute does not "contribute nothing" - int() is
applied before the roster check, so the fetch raises ValueError instead
of returning the qualifying sum 3. -/
theorem c4_bad_attr_counterexample :
    (fetch_total_wins ["A"] "u" ⟨200, ⟨Option.some
        [⟨Option.some "B", Option.some "xx"⟩, ⟨Option.some "A", Option.some "3"⟩]⟩⟩).1
      = .error PyErr.valueError
    ∧ qualifyingSum ["A"]
        [⟨Option.some "B", Option.some "xx"⟩, ⟨Option.some "A", Option.some "3"⟩] = 3
    ∧ (Except.error PyErr.valueError : Except PyErr Int) ≠ .ok (qualifyingSum ["A"]
        [⟨Option.some "B", Option.some "xx"⟩, ⟨Option.some "A", Option.some "3"⟩]) :=
  ⟨rfl, rfl, by simp⟩

/-- Claim C5: invoked with fewer than two argv entries (no usernames
file), the program prints the usage line and performs no work: its
effect trace holds no file read, no HTTP request and no file write. -/
theorem c5_missing_arg_no_work (challengers : List String) (env : Env) (argv : List String)
    (h : argv.length < 2) :
    entryEffects challengers env argv = [Effect.print usageMsg]
    ∧ ∀ e ∈ entryEffects challengers env argv, ∀ p : String,
        e ≠ Effect.readFile p ∧ e ≠ Effect.httpGet p ∧ e ≠ Effect.writeFile p := by
  have h1 : entryEffects challengers env argv = [Effect.print usageMsg] := by
    simp [entryEffects, h]
  refine ⟨h1, ?_⟩
  intro e he p
  rw [h1] at he
  simp only [List.mem_singleton] at he
  subst he
  exact ⟨by simp, by simp, by simp⟩

/-- Environment with no files and empty pages, for the CLI witnesses. -/
def emptyEnv : Env :=
  ⟨fun _ => Option.none, fun _ => ⟨200, ⟨Option.none⟩⟩, "2024-01-01"⟩

/-- Witness for claim C5: argv holding only the program name. -/
theorem c5_missing_arg_no_work_witness :
    entryEffects [] emptyEnv ["main.py"] = [Effect.print usageMsg]
    ∧ ∀ e ∈ entryEffects [] emptyEnv ["main.py"], ∀ p : String,
        e ≠ Effect.readFile p ∧ e ≠ Effect.httpGet p ∧ e ≠ Effect.writeFile p :=
  c5_missing_arg_no_work [] emptyEnv ["main.py"] (by decide)

/-- Claim C6: the CLI binds one positional usernames path plus two
optional CSV paths, and an omitted optional path defaults to
default.csv, the same file for both; with no usernames argument nothing
is bound. -/
theorem c6_cli_defaults (prog u i o : String) :
    parseArgs [prog, u] = Option.some (u, "default.csv", "default.csv")
    ∧ parseArgs [prog, u, i] = Option.some (u, i, "default.csv")
    ∧ parseArgs [prog, u, i, o] = Option.some (u, i, o)
    ∧ parseArgs [prog] = Option.none
    ∧ parseArgs [] = Option.none :=
  ⟨rfl, rfl, rfl, rfl, rfl⟩

/-- Claim C7 (amended): when the user's record has date-string week
columns whose values are non-negative integers no larger than the
fetched total, the current week is a date string and the total is
non-negative, a successful process_user run leaves every non-special
column a date string holding a non-negative integer, and the stored
"# wins this week" delta is a non-negative integer. -/
theorem c7_record_invariants (username current_week : String) (wd d2 : WeeklyData)
    (total : Int)
    (hval : ∀ w ∈ weekKeys (userRec wd username),
        (pyInt ((alGet (userRec wd username) w).getD Val.vNone)).isSome = true ∧
        0 ≤ (pyInt ((alGet (userRec wd username) w).getD Val.vNone)).getD 0 ∧
        (pyInt ((alGet (userRec wd username) w).getD Val.vNone)).getD 0 ≤ total)
    (hdate : ∀ w ∈ weekKeys (userRec wd username), isDateString w = true)
    (hcwd : isDateString current_week = true)
    (htot : 0 ≤ total)
    (hrun : process_user username wd current_week total = .ok d2) :
    (∀ k, isSpecial k = false → ∀ v, alGet ((alGet d2 username).getD []) k = Option.some v →
        isDateString k = true ∧ ∃ n : Int, pyInt v = Option.some n ∧ 0 ≤ n)
    ∧ (∃ dlt : Int, alGet ((alGet d2 username).getD []) "# wins this week"
        = Option.some (Val.vInt dlt) ∧ 0 ≤ dlt) :=
  process_user_invariant_core username current_week wd d2 total
    (fun w hw v hv => by
      obtain ⟨h1, h2, h3⟩ := hval w hw
      rw [hv] at h1 h2 h3
      simp only [Option.getD_some] at h1 h2 h3
      cases hpi : pyInt v with
      | none => rw [hpi] at h1; simp at h1
      | some n =>
          rw [hpi] at h2 h3
          simp only [Option.getD_some] at h2 h3
          exact ⟨n, rfl, h2, h3⟩)
    hdate hcwd htot hrun

/-- Input table for the C7 witness. -/
def c7Table : WeeklyData := [("u", [("", Val.vStr "u"), ("2024-01-06", Val.vStr "3")])]

/-- Table returned by process_user on the C7 witness input. -/
def c7Result : WeeklyData :=
  match process_user "u" c7Table "2024-01-13" 10 with
  | .ok d => d
  | .error _ => []

/-- Witness for claim C7 at a concrete input. -/
theorem c7_record_invariants_witness :
    (∀ k, isSpecial k = false → ∀ v, alGet ((alGet c7Result "u").getD []) k = Option.some v →
        isDateString k = true ∧ ∃ n : Int, pyInt v = Option.some n ∧ 0 ≤ n)
    ∧ (∃ dlt : Int, alGet ((alGet c7Result "u").getD []) "# wins this week"
        = Option.some (Val.vInt dlt) ∧ 0 ≤ dlt) :=
  c7_record_invariants "u" "2024-01-13" c7Table c7Result 10
    (by decide) (by decide) (by decide) (by decide) (by rfl)

/-- Counterexample to claim C7 as stated: a fetched total (3) smaller
than the prior recorded value (5) - as after a failed or shrunken fetch -
makes process_user store the negative delta -2. -/
theorem c7_negative_delta_counterexample :
    ((process_user "u" [("u", [("", Val.vStr "u"), ("2024-01-06", Val.vInt 5)])]
        "2024-01-13" 3).toOption.bind
      (fun d => (alGet d "u").bind (fun r => alGet r "# wins this week")))
      = Option.some (Val.vInt (-2))
    ∧ ¬ (0 : Int) ≤ (-2 : Int) :=
  ⟨rfl, by decide⟩

/-- Claim C8 is a code bug: on a fresh user whose fetched total is 0
(zero wins, or any failed fetch), every recorded value is falsy, the
loop starts at i = len(weeks) - 1, and the weeks[i+1] access raises
IndexError instead of returning; determine_last_battled_week does not
terminate normally. -/
theorem c8_determine_index_error :
    determine_last_battled_week [("", Val.vStr "alice"), ("2024-01-06", Val.vInt 0)] 0
      = .error PyErr.indexError := rfl

/-- Claim C9: after a completed update_or_create_csv run the users of
the resulting ledger are exactly the listed usernames: input rows with
other usernames are dropped on load, and every listed username has a
row even if absent from the input. -/
theorem c9_ledger_users (rawInput : Option (List (List String))) (usernames : List String)
    (current_week : String) (totals : String → Int) (d : WeeklyData)
    (hrun : update_or_create_csv rawInput usernames current_week totals = .ok d)
    (v : String) :
    ((alGet d v).isSome = true ↔ v ∈ usernames) := by
  cases rawInput with
  | none =>
      simp only [update_or_create_csv] at hrun
      have h1 := processAll_keys current_week totals usernames [] d hrun v
      simpa [alGet] using h1
  | some rows =>
      simp only [update_or_create_csv] at hrun
      cases hl : load_weekly_data rows usernames with
      | error e =>
          simp only [hl] at hrun
          exact absurd hrun (by simp)
      | ok wd0 =>
          simp only [hl] at hrun
          have h1 := processAll_keys current_week totals usernames wd0 d hrun v
          constructor
          · intro hs
            rcases h1.mp hs with h | h
            · exact h
            · exact load_weekly_data_keys rows usernames wd0 hl v h
          · intro hm
            exact h1.mpr (Or.inl hm)

/-- Ledger produced by the C9 witness run. -/
def c9Result : WeeklyData :=
  match update_or_create_csv Option.none ["alice"] "2024-01-06" (fun _ => 5) with
  | .ok d => d
  | .error _ => []

/-- Witness for claim C9: a run with no input file and one username. -/
theorem c9_ledger_users_witness :
    ((alGet c9Result "alice").isSome = true ↔ "alice" ∈ ["alice"]) :=
  c9_ledger_users Option.none ["alice"] "2024-01-06" (fun _ => 5) c9Result rfl "alice"

/-- Claim C10: a successful process_user run can only create or modify
the processed user's record; every other user's record is unchanged. -/
theorem c10_process_user_frame (username current_week : String) (wd d2 : WeeklyData)
    (total : Int)
    (hrun : process_user username wd current_week total = .ok d2)
    (v : String) (hv : v ≠ username) :
    alGet d2 v = alGet wd v :=
  process_user_frame username current_week wd d2 total hrun v hv

/-- Table for the C10 witness: an unrelated user bob. -/
def c10Table : WeeklyData := [("bob", [("", Val.vStr "bob")])]

/-- Table returned by the C10 witness run, which processes alice. -/
def c10Result : WeeklyData :=
  match process_user "alice" c10Table "2024-01-06" 4 with
  | .ok d => d
  | .error _ => []

/-- Witness for claim C10: processing alice leaves bob's record as it
was. -/
theorem c10_process_user_frame_witness :
    alGet c10Result "bob" = alGet c10Table "bob" :=
  c10_process_user_frame "alice" "2024-01-06" c10Table c10Result 4 rfl "bob" (by decide)
